import Mathlib

/-!
Verification of the wiff diff-viewer core against its specification.

The definitions below are a shallow embedding of the Go sources:
`diff.go` (hunk model, patch emission, label minting), `keys.go`
(reserved keys and the label alphabet), `search.go` (display-line
builders, wrapping, label lookup) and the key dispatcher
(`handlePending`, `handleYankHunk`, `handleStageHunk`).
Strings are modelled rune-wise (Go iterates runes where it matters;
labels and op characters are ASCII).
-/

namespace Wiff

/-- Per-line op of a diff line.  `parseLines` in diff.go classifies every
parsed line as add (`'+'`), delete (`'-'`) or context (`' '`, the default
branch), so the op universe of a `Line` is exactly these three values. -/
inductive Op
  | add
  | remove
  | context
deriving DecidableEq, Repr

/-- Op character used when re-emitting a patch: '+', '-' or ' '. -/
def Op.char : Op → Char
  | Op.add => '+'
  | Op.remove => '-'
  | Op.context => ' '

/-- Line represents a single line in a diff hunk (diff.go). -/
structure Line where
  op : Op
  content : String
deriving DecidableEq, Repr

/-- Hunk represents a diff hunk with a label for quick reference (diff.go).
The `staged` field is referenced by `handleStageHunk` and the test suite but
its declaration is not among the provided sources; it is modelled from the
spec: "staged (whether this hunk is currently staged)". -/
structure Hunk where
  label : String := ""
  file : String := ""
  header : String := ""
  comment : String := ""
  oldStart : Int := 0
  newStart : Int := 0
  lines : List Line := []
  startLine : Int := 0
  staged : Bool := false
deriving DecidableEq, Repr

/-- filterLines (diff.go): the contents of the lines whose op matches,
joined with newlines. -/
def Hunk.filterLines (h : Hunk) (op : Op) : String :=
  String.intercalate "\n" ((h.lines.filter (fun l => l.op == op)).map (fun l => l.content))

/-- AddedLines returns all added lines joined by newlines (diff.go). -/
def Hunk.addedLines (h : Hunk) : String :=
  h.filterLines Op.add

/-- RemovedLines returns all removed lines joined by newlines (diff.go). -/
def Hunk.removedLines (h : Hunk) : String :=
  h.filterLines Op.remove

/-- AsPatch formats the hunk as a unified diff patch (diff.go): a string
builder starts from the raw header plus a newline and, for each line in
order, appends the op character, the content and a newline. -/
def Hunk.asPatch (h : Hunk) : String :=
  h.lines.foldl (fun sb l => sb ++ String.singleton l.op.char ++ l.content ++ "\n")
    (h.header ++ "\n")

/-- Modelled from the spec: the method `Hunk.ResultLines` is called by
`handleYankHunk` and exercised by the test suite, but its definition is not
among the provided sources.  Spec: "result_lines(h): context and `+` lines'
content, joined with `\n`". -/
def Hunk.resultLines (h : Hunk) : String :=
  String.intercalate "\n"
    ((h.lines.filter (fun l => l.op == Op.context || l.op == Op.add)).map (fun l => l.content))

/-- Modelled from the spec: the method `Hunk.AsFullPatch` is called by
`handleStageHunk` and exercised by the test suite, but its definition is not
among the provided sources.  Spec: "as_full_patch(h): prepends
`diff --git a/<file> b/<file>\n--- a/<file>\n+++ b/<file>\n` to
`as_patch(h)`.  Used for staging." -/
def Hunk.asFullPatch (h : Hunk) : String :=
  "diff --git a/" ++ h.file ++ " b/" ++ h.file ++ "\n" ++
    "--- a/" ++ h.file ++ "\n" ++
    "+++ b/" ++ h.file ++ "\n" ++
    h.asPatch

/-- HunkByLabel (search.go) finds a hunk by its label: the scan runs over the
hunk list front to back and returns the first hunk whose label equals the
query. -/
def hunkByLabel (hunks : List Hunk) (lab : String) : Option Hunk :=
  hunks.find? (fun h => h.label == lab)

/-- hasLabelPrefix (search.go) returns true if any hunk has a label starting
with the given string that is longer than the string itself. -/
def hasLabelPrefix (hunks : List Hunk) (pre : String) : Bool :=
  hunks.any (fun h => pre.data.length < h.label.data.length && pre.data.isPrefixOf h.label.data)

/-- Style of a display line (search.go). -/
inductive LineStyle
  | normal
  | fileHeader
  | hunkHeader
  | added
  | removed
  | context
deriving DecidableEq, Repr

/-- HalfLine represents one side of a side-by-side display (search.go).
Field defaults are the Go zero values. -/
structure HalfLine where
  text : String := ""
  style : LineStyle := LineStyle.normal
  lineNo : Int := 0
deriving DecidableEq, Repr

/-- DisplayLine represents a rendered line (search.go).  Field defaults are
the Go zero values. -/
structure DisplayLine where
  text : String := ""
  style : LineStyle := LineStyle.normal
  label : String := ""
  hunkIdx : Int := 0
  oldLineNo : Int := 0
  newLineNo : Int := 0
  continuation : Bool := false
  left : HalfLine := {}
  right : HalfLine := {}
deriving DecidableEq, Repr

/-- lineNoWidth (rendering): "1234 " = 4 digits + one space. -/
def lineNoWidth : Int := 5

/-- maxLabelWidth (search.go): rune count of the widest hunk label, at
least 1. -/
def maxLabelWidth (hunks : List Hunk) : Nat :=
  hunks.foldl (fun m h => max m h.label.data.length) 1

/-- computeLabelGutter (search.go): widest label plus the three characters of
" │ ". -/
def labelGutter (hunks : List Hunk) : Int :=
  (maxLabelWidth hunks : Int) + 3

/-- textWidth (search.go): available character width for text content in
inline mode, floored at 1. -/
def textWidth (diffWidth gutter : Int) (lineNumbers : Bool) : Int :=
  let w := diffWidth - gutter
  let w2 := if lineNumbers then w - lineNoWidth else w
  if w2 < 1 then 1 else w2

/-- sideBySideColWidth (search.go): character width available for each column
in side-by-side mode, floored at 1. -/
def sideBySideColWidth (diffWidth gutter : Int) (lineNumbers : Bool) : Int :=
  let lnoExtra := if lineNumbers then lineNoWidth else 0
  let colWidth := (diffWidth - gutter - 1) / 2
  let tw := colWidth - lnoExtra
  if tw < 1 then 1 else tw

/-- Context row of the side-by-side build (search.go): the same text on both
sides. -/
def contextRow (hunkIdx : Int) (content : String) (oldNo newNo : Int) : DisplayLine :=
  { style := LineStyle.context, hunkIdx := hunkIdx,
    left := { text := " " ++ content, style := LineStyle.context, lineNo := oldNo },
    right := { text := " " ++ content, style := LineStyle.context, lineNo := newNo } }

/-- The pairing loop of buildSideBySideLines (search.go): removes and adds of
one group paired by index, the shorter side padded with zero-valued halves;
the row style is context, overridden to removed when the left text is
non-empty, else to added when the right text is non-empty.  The collected
line numbers are `oldNo, oldNo+1, ...` and `newNo, newNo+1, ...`. -/
def pairBlock (hunkIdx : Int) (removes adds : List Line) (oldNo newNo : Int) :
    List DisplayLine :=
  (List.range (max removes.length adds.length)).map fun k =>
    let left : HalfLine :=
      match removes[k]? with
      | some l => { text := "-" ++ l.content, style := LineStyle.removed, lineNo := oldNo + k }
      | none => {}
    let right : HalfLine :=
      match adds[k]? with
      | some l => { text := "+" ++ l.content, style := LineStyle.added, lineNo := newNo + k }
      | none => {}
    let lineStyle :=
      if left.text != "" then LineStyle.removed
      else if right.text != "" then LineStyle.added
      else LineStyle.context
    { style := lineStyle, hunkIdx := hunkIdx, left := left, right := right }

theorem length_dropWhile_line (p : Line → Bool) (l : List Line) :
    (l.dropWhile p).length ≤ l.length :=
  (List.dropWhile_sublist p).length_le

/-- The inner loop of buildSideBySideLines (search.go): context lines emit a
single two-sided row; otherwise the maximal run of consecutive removes and
the immediately following run of consecutive adds are collected and paired. -/
def sbsRows (hunkIdx : Int) (lines : List Line) (oldNo newNo : Int) : List DisplayLine :=
  match lines with
  | [] => []
  | l :: rest =>
    match l.op with
    | Op.context =>
        contextRow hunkIdx l.content oldNo newNo
          :: sbsRows hunkIdx rest (oldNo + 1) (newNo + 1)
    | Op.remove =>
        let removes := l :: rest.takeWhile (fun x => x.op == Op.remove)
        let afterR := rest.dropWhile (fun x => x.op == Op.remove)
        let adds := afterR.takeWhile (fun x => x.op == Op.add)
        let rest2 := afterR.dropWhile (fun x => x.op == Op.add)
        pairBlock hunkIdx removes adds oldNo newNo
          ++ sbsRows hunkIdx rest2 (oldNo + (removes.length : Int)) (newNo + (adds.length : Int))
    | Op.add =>
        let adds := l :: rest.takeWhile (fun x => x.op == Op.add)
        let rest2 := rest.dropWhile (fun x => x.op == Op.add)
        pairBlock hunkIdx [] adds oldNo newNo
          ++ sbsRows hunkIdx rest2 oldNo (newNo + (adds.length : Int))
termination_by lines.length
decreasing_by
  · simp
  · simp only [List.length_cons]
    exact Nat.lt_succ_of_le
      (Nat.le_trans (length_dropWhile_line _ _) (length_dropWhile_line _ _))
  · simp only [List.length_cons]
    exact Nat.lt_succ_of_le (length_dropWhile_line _ _)

/-- Per-hunk iteration of buildSideBySideLines (search.go): filtered hunks
are skipped; a blank line and a file-header row are emitted when the file
changes (the blank only between files); then a blank row, the hunk-header row
carrying the label, and the paired rows. -/
def buildSBSAux (hunks : List Hunk) (i : Int) (currentFile filterFile : String) :
    List DisplayLine :=
  match hunks with
  | [] => []
  | h :: rest =>
    if filterFile != "" && h.file != filterFile then
      buildSBSAux rest (i + 1) currentFile filterFile
    else
      (if h.file != currentFile then
        (if currentFile != "" then [{}] else []) ++ [{ text := h.file, style := LineStyle.fileHeader }]
      else [])
      ++ [{}]
      ++ [{ text := h.comment, style := LineStyle.hunkHeader, label := h.label, hunkIdx := i }]
      ++ sbsRows i h.lines h.oldStart h.newStart
      ++ buildSBSAux rest (i + 1) (if h.file != currentFile then h.file else currentFile) filterFile

/-- buildSideBySideLines (search.go). -/
def buildSideBySideLines (hunks : List Hunk) (filterFile : String) : List DisplayLine :=
  buildSBSAux hunks 0 "" filterFile

/-- Diff-line loop of buildInlineLines (search.go): one row per hunk line,
the text being the op character followed by the content, with line numbers
advanced by op. -/
def inlineRows (hunkIdx : Int) (lines : List Line) (oldNo newNo : Int) : List DisplayLine :=
  match lines with
  | [] => []
  | l :: rest =>
    match l.op with
    | Op.add =>
        { text := String.singleton '+' ++ l.content, style := LineStyle.added,
          hunkIdx := hunkIdx, oldLineNo := 0, newLineNo := newNo }
          :: inlineRows hunkIdx rest oldNo (newNo + 1)
    | Op.remove =>
        { text := String.singleton '-' ++ l.content, style := LineStyle.removed,
          hunkIdx := hunkIdx, oldLineNo := oldNo, newLineNo := 0 }
          :: inlineRows hunkIdx rest (oldNo + 1) newNo
    | Op.context =>
        { text := String.singleton ' ' ++ l.content, style := LineStyle.context,
          hunkIdx := hunkIdx, oldLineNo := oldNo, newLineNo := newNo }
          :: inlineRows hunkIdx rest (oldNo + 1) (newNo + 1)

/-- Per-hunk iteration of buildInlineLines (search.go). -/
def buildInlineAux (hunks : List Hunk) (i : Int) (currentFile filterFile : String) :
    List DisplayLine :=
  match hunks with
  | [] => []
  | h :: rest =>
    if filterFile != "" && h.file != filterFile then
      buildInlineAux rest (i + 1) currentFile filterFile
    else
      (if h.file != currentFile then
        (if currentFile != "" then [{}] else []) ++ [{ text := h.file, style := LineStyle.fileHeader }]
      else [])
      ++ [{}]
      ++ [{ text := h.comment, style := LineStyle.hunkHeader, label := h.label, hunkIdx := i }]
      ++ inlineRows i h.lines h.oldStart h.newStart
      ++ buildInlineAux rest (i + 1) (if h.file != currentFile then h.file else currentFile) filterFile

/-- buildInlineLines (search.go). -/
def buildInlineLines (hunks : List Hunk) (filterFile : String) : List DisplayLine :=
  buildInlineAux hunks 0 "" filterFile

/-- The continuation-chunk loop of wrapLines (search.go): while runes remain,
take up to `tw` of them.  The source advances by `min tw (len runes)` per
iteration and is only ever invoked with `tw ≥ 1` (textWidth and
sideBySideColWidth floor at 1); `max tw 1` keeps the recursion total and
agrees with the source there. -/
def wrapChunks (tw : Nat) (rs : List Char) : List (List Char) :=
  if rs.isEmpty then []
  else rs.take tw :: wrapChunks tw (rs.drop (max tw 1))
termination_by rs.length
decreasing_by
  rename_i hne
  have : rs ≠ [] := by
    intro he
    rw [he] at hne
    exact hne rfl
  have hpos : 0 < rs.length := List.length_pos.mpr this
  rw [List.length_drop]
  omega

/-- One line of the wrap pass of wrapLines (search.go): non-content lines are
kept; short content lines are kept; long content lines are split into a first
chunk retaining line numbers and continuation chunks marked `continuation`
with zero line numbers and no label. -/
def wrapOne (tw : Nat) (line : DisplayLine) : List DisplayLine :=
  if line.style == LineStyle.normal || line.style == LineStyle.fileHeader
      || line.style == LineStyle.hunkHeader then [line]
  else if line.text.data.length ≤ tw then [line]
  else
    { text := String.mk (line.text.data.take tw), style := line.style,
      hunkIdx := line.hunkIdx, oldLineNo := line.oldLineNo, newLineNo := line.newLineNo }
      :: (wrapChunks tw (line.text.data.drop tw)).map
          (fun chunk => { text := String.mk chunk, style := line.style,
                          hunkIdx := line.hunkIdx, continuation := true })

/-- wrapLines (search.go), as the per-line wrap concatenated in order.  The
StartLine re-resolution that follows in the source is display-index
bookkeeping and is not modelled. -/
def wrapLines (tw : Nat) (lines : List DisplayLine) : List DisplayLine :=
  lines.flatMap (wrapOne tw)

/-- The continuation loop of wrapSideBySideLines (search.go): both halves are
chunked in lockstep until both are exhausted; exhausted sides emit empty
text. -/
def wrapSBSCont (tw : Nat) (line : DisplayLine) (ls rs : List Char) : List DisplayLine :=
  if ls.isEmpty && rs.isEmpty then []
  else
    { style := line.style, hunkIdx := line.hunkIdx, continuation := true,
      left := { text := String.mk (ls.take tw), style := line.left.style },
      right := { text := String.mk (rs.take tw), style := line.right.style } }
      :: wrapSBSCont tw line (ls.drop (max tw 1)) (rs.drop (max tw 1))
termination_by ls.length + rs.length
decreasing_by
  rename_i hne
  rw [Bool.and_eq_true] at hne
  have : ¬ (ls.isEmpty = true ∧ rs.isEmpty = true) := fun hc => hne ⟨hc.1, hc.2⟩
  rw [List.isEmpty_iff, List.isEmpty_iff] at this
  have hlen : 0 < ls.length ∨ 0 < rs.length := by
    by_contra hno
    push_neg at hno
    exact this ⟨List.length_eq_zero.mp (Nat.le_zero.mp hno.1),
      List.length_eq_zero.mp (Nat.le_zero.mp hno.2)⟩
  rw [List.length_drop, List.length_drop]
  omega

/-- One line of wrapSideBySideLines (search.go). -/
def wrapSBSLine (tw : Nat) (line : DisplayLine) : List DisplayLine :=
  if line.style == LineStyle.normal || line.style == LineStyle.fileHeader
      || line.style == LineStyle.hunkHeader then [line]
  else if line.left.text.data.length ≤ tw && line.right.text.data.length ≤ tw then [line]
  else
    { style := line.style, label := line.label, hunkIdx := line.hunkIdx,
      left := { text := String.mk (line.left.text.data.take tw), style := line.left.style,
                lineNo := line.left.lineNo },
      right := { text := String.mk (line.right.text.data.take tw), style := line.right.style,
                 lineNo := line.right.lineNo } }
      :: wrapSBSCont tw line (line.left.text.data.drop tw) (line.right.text.data.drop tw)

/-- wrapSideBySideLines (search.go). -/
def wrapSideBySideLines (tw : Nat) (lines : List DisplayLine) : List DisplayLine :=
  lines.flatMap (wrapSBSLine tw)

/-- BuildLines (search.go), restricted to the diff view (FullFile off): build
inline or side-by-side lines, then apply the wrap pass when wrap is on.  The
full-file branches read file contents from the VCS child process and are not
modelled here. -/
def buildLinesDiffView (hunks : List Hunk) (sideBySide wrap lineNumbers : Bool)
    (filterFile : String) (diffWidth : Int) : List DisplayLine :=
  if sideBySide then
    let base := buildSideBySideLines hunks filterFile
    if wrap then
      wrapSideBySideLines (sideBySideColWidth diffWidth (labelGutter hunks) lineNumbers).toNat base
    else base
  else
    let base := buildInlineLines hunks filterFile
    if wrap then
      wrapLines (textWidth diffWidth (labelGutter hunks) lineNumbers).toNat base
    else base

/-- Result of one run of the external VCS staging child process: it either
succeeds or fails with an error rendering. -/
inductive GitResult
  | ok
  | fail (err : String)
deriving DecidableEq, Repr

/-- Observable effect of `handleStageHunk`: the argument vector and the stdin
bytes handed to the VCS child process, the (possibly updated) hunk, and the
flash message shown afterwards. -/
structure StageEffect where
  args : List String
  stdin : String
  hunk : Hunk
  flashMsg : String
deriving DecidableEq, Repr

/-- handleStageHunk (key dispatcher): builds the full patch, invokes
`git apply --cached` (with `-R` when the hunk is already staged) with the
patch on stdin; on failure flashes "<Stage|Unstage> failed for hunk <L>: <err>"
and leaves the hunk unchanged; on success toggles `staged` and flashes
"Staged hunk <L>" or "Unstaged hunk <L>".  The child process run is an
external effect; its outcome is passed in as `res`. -/
def handleStageHunk (h : Hunk) (res : GitResult) : StageEffect :=
  let patch := h.asFullPatch
  let args := ["apply", "--cached"] ++ (if h.staged then ["-R"] else [])
  match res with
  | GitResult.fail err =>
      let action := if h.staged then "Unstage" else "Stage"
      { args := args, stdin := patch, hunk := h,
        flashMsg := action ++ " failed for hunk " ++ h.label ++ ": " ++ err }
  | GitResult.ok =>
      let h2 : Hunk := { h with staged := !h.staged }
      { args := args, stdin := patch, hunk := h2,
        flashMsg := (if h2.staged then "Staged hunk " else "Unstaged hunk ") ++ h2.label }

/-- Result of one step of the pending-label state machine: the new pending
key (the NUL rune when cleared) and label, the hunk the command executed on
(if any), and whether the 500 ms auto-resolve timer was armed. -/
structure PendStep where
  pendingKey : Char
  pendingLabel : String
  executed : Option Hunk
  timerArmed : Bool
deriving DecidableEq, Repr

/-- handlePending (key dispatcher), label-consuming branch: the step taken on
a new rune `r` while a label-consuming command `cmd` (one of y Y p c A) is
pending with accumulated label `pLabel`.  The y/Y/p/c branch and the A branch
of the source are textually identical up to the executed command, which is
abstracted into the `executed` field here. -/
def handlePendingLabel (hunks : List Hunk) (cmd : Char) (pLabel : String) (r : Char) : PendStep :=
  let candidate := pLabel ++ String.singleton r
  if (hunkByLabel hunks candidate).isSome && !( hasLabelPrefix hunks candidate) then
    { pendingKey := Char.ofNat 0, pendingLabel := "",
      executed := hunkByLabel hunks candidate, timerArmed := false }
  else if hasLabelPrefix hunks candidate || (hunkByLabel hunks candidate).isSome then
    { pendingKey := cmd, pendingLabel := candidate, executed := none, timerArmed := true }
  else if pLabel != "" && (hunkByLabel hunks pLabel).isSome then
    { pendingKey := Char.ofNat 0, pendingLabel := "",
      executed := hunkByLabel hunks pLabel, timerArmed := false }
  else
    { pendingKey := Char.ofNat 0, pendingLabel := "", executed := none, timerArmed := false }

/-! Helper lemmas about strings. -/

theorem string_data_append (a b : String) : (a ++ b).data = a.data ++ b.data := by
  cases a
  cases b
  rfl

theorem string_data_mk (l : List Char) : (String.mk l).data = l := rfl

theorem string_append_assoc (a b c : String) : a ++ b ++ c = a ++ (b ++ c) :=
  String.ext (by simp [string_data_append])

theorem string_append_empty (a : String) : a ++ "" = a :=
  String.ext (by simp [string_data_append])

theorem string_foldl_append_data (l : List String) (init : String) :
    (l.foldl (fun r s => r ++ s) init).data = init.data ++ (l.map String.data).flatten := by
  induction l generalizing init with
  | nil => simp
  | cons b l ih => simp [List.foldl, ih, string_data_append]

theorem string_join_data (l : List String) :
    (String.join l).data = (l.map String.data).flatten := by
  show (l.foldl (fun r s => r ++ s) "").data = _
  rw [string_foldl_append_data]
  rfl

/-! ### C1: AsPatch emits the raw header, a newline, then op+content+newline per line -/

theorem asPatch_foldl (ls : List Line) (init : String) :
    (ls.foldl (fun sb l => sb ++ String.singleton l.op.char ++ l.content ++ "\n") init).data
      = init.data
        ++ ((ls.map (fun l => String.singleton l.op.char ++ l.content ++ "\n")).map String.data).flatten := by
  induction ls generalizing init with
  | nil => simp
  | cons l ls ih => simp [List.foldl, ih, string_data_append]

/-- C1: for every hunk, `AsPatch` returns exactly the raw header followed by a
newline, followed by, for each line of the hunk in order, its op character,
its content and a newline; it is a pure function of the hunk's fields, so two
calls yield byte-identical output. -/
theorem claim_C1_as_patch (h : Hunk) :
    h.asPatch = h.header ++ "\n"
        ++ String.join (h.lines.map (fun l => String.singleton l.op.char ++ l.content ++ "\n"))
      ∧ h.asPatch = h.asPatch := by
  refine ⟨?_, rfl⟩
  apply String.ext
  show (List.foldl (fun sb l => sb ++ String.singleton l.op.char ++ l.content ++ "\n")
      (h.header ++ "\n") h.lines).data = _
  rw [asPatch_foldl, string_data_append, string_data_append, string_join_data]
  simp [string_data_append]

/-! ### C7: AddedLines / RemovedLines -/

/-- Concrete hunk for the C7 counterexample: the same content is both added
and removed (as happens for any moved line). -/
def c7hunk : Hunk :=
  { lines := [⟨Op.add, "a"⟩, ⟨Op.remove, "a"⟩] }

/-- C7 counterexample: the claim says `added_lines(h)` "does not contain any
'-' line's content", but for a hunk whose '-' line content also occurs among
the '+' lines, the joined added lines do contain a removed content. -/
theorem claim_C7_counterexample :
    (⟨Op.remove, "a"⟩ : Line) ∈ c7hunk.lines
      ∧ (Line.mk Op.remove "a").content.data <:+: c7hunk.addedLines.data
      ∧ c7hunk.addedLines = "a" ∧ c7hunk.removedLines = "a" := by
  refine ⟨by decide, ?_, by decide, by decide⟩
  have h : c7hunk.addedLines = "a" := by decide
  rw [h]

theorem beq_op_false (a b : Op) (h : a ≠ b) : (a == b) = false :=
  beq_eq_false_iff_ne.mpr h

theorem filter_op_of_filter_not (ls : List Line) (a b : Op) (hab : a ≠ b) :
    (ls.filter (fun l => !(l.op == b))).filter (fun l => l.op == a)
      = ls.filter (fun l => l.op == a) := by
  induction ls with
  | nil => rfl
  | cons l ls ih =>
      by_cases hb : l.op = b
      · have ha : (l.op == a) = false := by
          rw [hb]
          exact beq_op_false b a (fun hc => hab hc.symm)
        have hb2 : (l.op == b) = true := by rw [hb]; exact beq_self_eq_true b
        simp [List.filter_cons, ha, hb2, ih]
      · have hb2 : (l.op == b) = false := beq_op_false _ _ hb
        simp [List.filter_cons, hb2, ih]

/-- C7 (amended): `added_lines(h)` equals the '+' lines' contents joined with
newlines and receives no contribution from the '-' lines: deleting every '-'
line from the hunk leaves it unchanged.  Symmetrically for `removed_lines`.
(The original non-containment phrasing fails when a removed content also
occurs inside the joined added contents, see the counterexample.) -/
theorem claim_C7_amended (h : Hunk) :
    h.addedLines
        = String.intercalate "\n" ((h.lines.filter (fun l => l.op == Op.add)).map (fun l => l.content))
      ∧ Hunk.addedLines { h with lines := h.lines.filter (fun l => !(l.op == Op.remove)) }
          = h.addedLines
      ∧ h.removedLines
          = String.intercalate "\n" ((h.lines.filter (fun l => l.op == Op.remove)).map (fun l => l.content))
      ∧ Hunk.removedLines { h with lines := h.lines.filter (fun l => !(l.op == Op.add)) }
          = h.removedLines := by
  refine ⟨rfl, ?_, rfl, ?_⟩
  · show String.intercalate "\n" _ = String.intercalate "\n" _
    rw [filter_op_of_filter_not h.lines Op.add Op.remove (by decide)]
  · show String.intercalate "\n" _ = String.intercalate "\n" _
    rw [filter_op_of_filter_not h.lines Op.remove Op.add (by decide)]

/-! ### C8: ResultLines (modelled from the spec) -/

/-- C8: `result_lines(h)` equals the contents of the context and '+' lines in
order joined with newlines; for an all-'+' hunk it equals `added_lines(h)`,
and for an all-'-' hunk it is empty. -/
theorem claim_C8_result_lines (h : Hunk) :
    h.resultLines
        = String.intercalate "\n"
            ((h.lines.filter (fun l => l.op == Op.context || l.op == Op.add)).map (fun l => l.content))
      ∧ ((∀ l ∈ h.lines, l.op = Op.add) → h.resultLines = h.addedLines)
      ∧ ((∀ l ∈ h.lines, l.op = Op.remove) → h.resultLines = "") := by
  refine ⟨rfl, ?_, ?_⟩
  · intro hall
    show String.intercalate "\n" _ = String.intercalate "\n" _
    rw [List.filter_eq_self.mpr (fun l hl => by simp [hall l hl]),
      List.filter_eq_self.mpr (fun l hl => by simp [hall l hl])]
  · intro hall
    show String.intercalate "\n" _ = ""
    rw [List.filter_eq_nil_iff.mpr (fun l hl => by simp [hall l hl])]
    rfl

/-- Witness for C8 at concrete hunks. -/
theorem claim_C8_witness :
    Hunk.resultLines { lines := [⟨Op.add, "x"⟩, ⟨Op.add, "y"⟩] }
        = Hunk.addedLines { lines := [⟨Op.add, "x"⟩, ⟨Op.add, "y"⟩] }
      ∧ Hunk.resultLines { lines := [⟨Op.remove, "x"⟩] } = "" :=
  ⟨(claim_C8_result_lines { lines := [⟨Op.add, "x"⟩, ⟨Op.add, "y"⟩] }).2.1 (by decide),
   (claim_C8_result_lines { lines := [⟨Op.remove, "x"⟩] }).2.2 (by decide)⟩

/-! ### C9: stage/unstage feeds the full patch on stdin and toggles only on success -/

/-- C9: the stage command hands `apply --cached` (plus `-R` when the hunk is
already staged) the full patch on stdin; on success the staged flag is
toggled, on failure the flash message is
"<Stage|Unstage> failed for hunk <L>: <err>" and the hunk is unchanged. -/
theorem claim_C9_stage (h : Hunk) (err : String) :
    (handleStageHunk h GitResult.ok).stdin = h.asFullPatch
      ∧ (handleStageHunk h (GitResult.fail err)).stdin = h.asFullPatch
      ∧ (handleStageHunk h GitResult.ok).args
          = ["apply", "--cached"] ++ (if h.staged then ["-R"] else [])
      ∧ (handleStageHunk h (GitResult.fail err)).args
          = ["apply", "--cached"] ++ (if h.staged then ["-R"] else [])
      ∧ (handleStageHunk h GitResult.ok).hunk.staged = !h.staged
      ∧ (handleStageHunk h (GitResult.fail err)).hunk = h
      ∧ (handleStageHunk h (GitResult.fail err)).flashMsg
          = (if h.staged then "Unstage" else "Stage") ++ " failed for hunk " ++ h.label ++ ": " ++ err := by
  cases h with
  | mk label file header comment oldStart newStart lines startLine staged =>
      cases staged <;> simp [handleStageHunk]

/-! ### Label registry (keys.go) -/

/-- Key runes of the application keybinding table (keys.go), in order. -/
def keyBindingKeys : List Char :=
  ['j', 'k', 'd', 'u', 'g', 'G',
   's', 'n', 'w', 'e', 'h', 'b',
   'f',
   'y', 'Y', 'p', 'c',
   'A',
   'F',
   '/', 'N',
   ']', '[',
   'a',
   '?',
   'o',
   'W',
   'q', '+', '=', '-']

/-- reservedKeys (keys.go): derived from the keybinding table; any rune here
is skipped for hunk labels. -/
def reservedKeys (c : Char) : Bool :=
  keyBindingKeys.contains c

/-- availableLabels (keys.go init): the safe label characters, lowercase a-z
then uppercase A-Z, minus the reserved runes, preserving that order. -/
def availableLabels : List Char :=
  ((List.range 26).map (fun i => Char.ofNat ('a'.toNat + i))).filter (fun c => !(reservedKeys c))
    ++ ((List.range 26).map (fun i => Char.ofNat ('A'.toNat + i))).filter (fun c => !(reservedKeys c))

/-- indexToLabel (diff.go): single character from the alphabet while indices
last, then two-character labels, the first character saturating at the end of
the alphabet. -/
def indexToLabel (idx : Nat) : String :=
  let n := availableLabels.length
  if idx < n then String.singleton (availableLabels.getD idx ' ')
  else
    let over := idx - n
    let first0 := over / n
    let second := over % n
    let first := if n ≤ first0 then n - 1 else first0
    String.singleton (availableLabels.getD first ' ')
      ++ String.singleton (availableLabels.getD second ' ')

theorem availableLabels_len : availableLabels.length = 28 := by decide

theorem indexToLabel_lt (i : Nat) (h : i < availableLabels.length) :
    indexToLabel i = String.singleton (availableLabels.getD i ' ') := by
  simp only [indexToLabel]
  rw [if_pos h]

theorem indexToLabel_ge (i : Nat) (h1 : availableLabels.length ≤ i) :
    indexToLabel i
      = String.singleton
          (availableLabels.getD
            (if availableLabels.length ≤ (i - availableLabels.length) / availableLabels.length
             then availableLabels.length - 1
             else (i - availableLabels.length) / availableLabels.length) ' ')
        ++ String.singleton
          (availableLabels.getD ((i - availableLabels.length) % availableLabels.length) ' ') := by
  simp only [indexToLabel]
  rw [if_neg (Nat.not_lt.mpr h1)]

theorem getD_mem (k : Nat) (h : k < availableLabels.length) :
    availableLabels.getD k ' ' ∈ availableLabels := by
  rw [List.getD_eq_getElem availableLabels ' ' h]
  exact List.getElem_mem h

theorem availableLabels_unreserved :
    ∀ c ∈ availableLabels, reservedKeys c = false := by decide

theorem sat_eq_min (first0 n : Nat) (hn : 0 < n) :
    (if n ≤ first0 then n - 1 else first0) = min first0 (n - 1) := by
  split <;> omega

/-! ### C3: the shape of minted labels -/

/-- C3: for indices below the alphabet size the label is the single character
`A[i]`, which is never a reserved key; for larger indices it is the
two-character string `A[min((i-|A|)/|A|, |A|-1)] ++ A[(i-|A|) mod |A|]`, both
characters drawn from the alphabet. -/
theorem claim_C3_index_to_label (i : Nat) :
    (i < availableLabels.length →
        indexToLabel i = String.singleton (availableLabels.getD i ' ')
        ∧ availableLabels.getD i ' ' ∈ availableLabels
        ∧ reservedKeys (availableLabels.getD i ' ') = false)
    ∧ (availableLabels.length ≤ i →
        indexToLabel i
            = String.singleton
                (availableLabels.getD
                  (min ((i - availableLabels.length) / availableLabels.length)
                    (availableLabels.length - 1)) ' ')
              ++ String.singleton
                (availableLabels.getD ((i - availableLabels.length) % availableLabels.length) ' ')
        ∧ availableLabels.getD
            (min ((i - availableLabels.length) / availableLabels.length)
              (availableLabels.length - 1)) ' ' ∈ availableLabels
        ∧ availableLabels.getD ((i - availableLabels.length) % availableLabels.length) ' '
            ∈ availableLabels) := by
  have hnpos : 0 < availableLabels.length := by rw [availableLabels_len]; omega
  constructor
  · intro h
    exact ⟨indexToLabel_lt i h, getD_mem i h,
      availableLabels_unreserved _ (getD_mem i h)⟩
  · intro h
    have hmin : min ((i - availableLabels.length) / availableLabels.length)
        (availableLabels.length - 1) < availableLabels.length := by
      have := Nat.min_le_right ((i - availableLabels.length) / availableLabels.length)
        (availableLabels.length - 1)
      omega
    have hmod : (i - availableLabels.length) % availableLabels.length
        < availableLabels.length := Nat.mod_lt _ hnpos
    refine ⟨?_, getD_mem _ hmin, getD_mem _ hmod⟩
    rw [indexToLabel_ge i h, sat_eq_min _ _ hnpos]

/-- Witness for C3 at indices 0 and 28 (= the alphabet size). -/
theorem claim_C3_witness :
    (indexToLabel 0 = String.singleton (availableLabels.getD 0 ' ')
        ∧ availableLabels.getD 0 ' ' ∈ availableLabels
        ∧ reservedKeys (availableLabels.getD 0 ' ') = false)
    ∧ indexToLabel 28 = "ii" := by
  refine ⟨(claim_C3_index_to_label 0).1 (by decide), ?_⟩
  have h := ((claim_C3_index_to_label 28).2 (by decide)).1
  rw [h]
  decide

/-! ### C4: labels of a single parse collide beyond index |A|*(|A|+1) - 1 -/

/-- C4 counterexample: `parseDiff` labels hunk k with `indexToLabel k`, and
the first-character saturation makes indices 784 and 812 share the label
"Zi", so a parse with at least 813 hunks has two hunks with equal labels. -/
theorem claim_C4_counterexample :
    (784 : Nat) ≠ 812 ∧ indexToLabel 784 = indexToLabel 812 ∧ indexToLabel 784 = "Zi" := by
  exact ⟨by decide, by decide, by decide⟩

theorem singleton_inj (a b : Char) (h : String.singleton a = String.singleton b) : a = b := by
  have hd := congrArg String.data h
  simpa [String.singleton] using hd

theorem getD_inj (k1 k2 : Nat) (h1 : k1 < availableLabels.length)
    (h2 : k2 < availableLabels.length)
    (he : availableLabels.getD k1 ' ' = availableLabels.getD k2 ' ') : k1 = k2 := by
  have hnd : availableLabels.Nodup := by decide
  rw [List.getD_eq_getElem availableLabels ' ' h1,
    List.getD_eq_getElem availableLabels ' ' h2] at he
  have := hnd.get_inj_iff.mp he
  exact congrArg Fin.val this

/-- C4 (amended): hunks of one parse have pairwise distinct labels provided
the parse has at most `|A| + |A|^2` (= 812) hunks; beyond that, saturation of
the first label character produces collisions (see the counterexample). -/
theorem claim_C4_amended (i j : Nat)
    (hi : i < availableLabels.length + availableLabels.length * availableLabels.length)
    (hj : j < availableLabels.length + availableLabels.length * availableLabels.length)
    (hij : i ≠ j) : indexToLabel i ≠ indexToLabel j := by
  intro he
  have hnpos : 0 < availableLabels.length := by rw [availableLabels_len]; omega
  rcases Nat.lt_or_ge i availableLabels.length with hilt | hige <;>
    rcases Nat.lt_or_ge j availableLabels.length with hjlt | hjge
  · rw [indexToLabel_lt i hilt, indexToLabel_lt j hjlt] at he
    exact hij (getD_inj i j hilt hjlt (singleton_inj _ _ he))
  · rw [indexToLabel_lt i hilt, indexToLabel_ge j hjge] at he
    have hd := congrArg String.data he
    simp [String.singleton, string_data_append] at hd
  · rw [indexToLabel_ge i hige, indexToLabel_lt j hjlt] at he
    have hd := congrArg String.data he
    simp [String.singleton, string_data_append] at hd
  · have hio : i - availableLabels.length < availableLabels.length * availableLabels.length := by
      omega
    have hjo : j - availableLabels.length < availableLabels.length * availableLabels.length := by
      omega
    have hidiv : (i - availableLabels.length) / availableLabels.length
        < availableLabels.length := Nat.div_lt_of_lt_mul hio
    have hjdiv : (j - availableLabels.length) / availableLabels.length
        < availableLabels.length := Nat.div_lt_of_lt_mul hjo
    rw [indexToLabel_ge i hige, indexToLabel_ge j hjge,
      if_neg (Nat.not_le.mpr hidiv), if_neg (Nat.not_le.mpr hjdiv)] at he
    have hd := congrArg String.data he
    simp only [string_data_append, String.singleton] at hd
    have hfirst : (i - availableLabels.length) / availableLabels.length
        = (j - availableLabels.length) / availableLabels.length :=
      getD_inj _ _ hidiv hjdiv (by
        have := List.head_eq_of_cons_eq hd
        exact this)
    have hsecond : (i - availableLabels.length) % availableLabels.length
        = (j - availableLabels.length) % availableLabels.length := by
      have htail := List.tail_eq_of_cons_eq hd
      have := List.head_eq_of_cons_eq htail
      exact getD_inj _ _ (Nat.mod_lt _ hnpos) (Nat.mod_lt _ hnpos) this
    have hover : i - availableLabels.length = j - availableLabels.length := by
      rw [← Nat.div_add_mod (i - availableLabels.length) availableLabels.length,
        ← Nat.div_add_mod (j - availableLabels.length) availableLabels.length,
        hfirst, hsecond]
    exact hij (by omega)

/-- Witness for C4 (amended) at indices 0 and 1. -/
theorem claim_C4_witness : indexToLabel 0 ≠ indexToLabel 1 :=
  claim_C4_amended 0 1 (by decide) (by decide) (by decide)

/-! ### Label lookup: spec-side notions and their agreement with the code -/

/-- Spec-side: some hunk's label equals `s` exactly. -/
def labelExact (hunks : List Hunk) (s : String) : Prop :=
  ∃ h ∈ hunks, h.label = s

/-- Spec-side: `s` is a strict prefix of some hunk's label. -/
def labelStrictPre (hunks : List Hunk) (s : String) : Prop :=
  ∃ h ∈ hunks, s.data <+: h.label.data ∧ s.data ≠ h.label.data

theorem strict_list_pre_iff (l1 l2 : List Char) :
    (decide (l1.length < l2.length) && l1.isPrefixOf l2) = true ↔ (l1 <+: l2 ∧ l1 ≠ l2) := by
  rw [Bool.and_eq_true, decide_eq_true_eq, List.isPrefixOf_iff_prefix]
  constructor
  · rintro ⟨hlt, hpre⟩
    exact ⟨hpre, fun he => by rw [he] at hlt; exact Nat.lt_irrefl _ hlt⟩
  · rintro ⟨hpre, hne⟩
    refine ⟨?_, hpre⟩
    rcases hpre with ⟨t, rfl⟩
    cases t with
    | nil => exact absurd (by simp) hne
    | cons c t => simp

theorem hunkByLabel_isSome (hunks : List Hunk) (s : String) :
    (hunkByLabel hunks s).isSome = true ↔ labelExact hunks s := by
  unfold hunkByLabel labelExact
  rw [List.find?_isSome]
  exact exists_congr fun h => and_congr_right fun _ => beq_iff_eq

theorem hasLabelPrefix_true_iff (hunks : List Hunk) (s : String) :
    hasLabelPrefix hunks s = true ↔ labelStrictPre hunks s := by
  unfold hasLabelPrefix labelStrictPre
  rw [List.any_eq_true]
  exact exists_congr fun h => and_congr_right fun _ => strict_list_pre_iff s.data h.label.data

theorem hunkByLabel_eq_none (hunks : List Hunk) (s : String)
    (hno : ¬ labelExact hunks s) : hunkByLabel hunks s = none := by
  rcases ho : hunkByLabel hunks s with _ | h
  · rfl
  · exact absurd ((hunkByLabel_isSome hunks s).mp (by rw [ho]; rfl)) hno

theorem hunkByLabel_mem_label (hunks : List Hunk) (s : String) (h : Hunk)
    (he : hunkByLabel hunks s = some h) : h.label = s ∧ h ∈ hunks := by
  unfold hunkByLabel at he
  have h1 := List.find?_some he
  have h2 := List.mem_of_find?_eq_some he
  exact ⟨by simpa using h1, h2⟩

instance (hunks : List Hunk) (s : String) : Decidable (labelExact hunks s) := by
  unfold labelExact
  infer_instance

instance (hunks : List Hunk) (s : String) : Decidable (labelStrictPre hunks s) := by
  unfold labelStrictPre
  infer_instance

/-! ### C10: HunkByLabel returns the earliest hunk bearing the label -/

theorem hunkByLabel_first (hunks : List Hunk) (lab : String) (i : Nat)
    (hi : i < hunks.length) (hmatch : (hunks.get ⟨i, hi⟩).label = lab)
    (hfirst : ∀ j (hj : j < hunks.length), j < i → (hunks.get ⟨j, hj⟩).label ≠ lab) :
    hunkByLabel hunks lab = some (hunks.get ⟨i, hi⟩) := by
  induction hunks generalizing i with
  | nil => exact absurd hi (Nat.not_lt_zero i)
  | cons h t ih =>
      cases i with
      | zero =>
          have : (h.label == lab) = true := beq_iff_eq.mpr hmatch
          unfold hunkByLabel
          simp [List.find?_cons, this]
      | succ i =>
          have hne : h.label ≠ lab := hfirst 0 (Nat.succ_pos _) (Nat.succ_pos i)
          have hb : (h.label == lab) = false := beq_eq_false_iff_ne.mpr hne
          show List.find? _ (h :: t) = _
          rw [List.find?_cons, hb]
          exact ih i (Nat.lt_of_succ_lt_succ hi) hmatch
            (fun j hj hji => hfirst (j + 1) (Nat.succ_lt_succ hj) (Nat.succ_lt_succ hji))

/-- C10: label lookup returns the earliest hunk in parse order whose label
equals the query, and whatever hunk a pending-label dispatcher step executes
on is always the result of such a lookup (on the candidate or on the
previously accumulated label), so label-consuming commands act on the first
hunk bearing a colliding label. -/
theorem claim_C10_hunk_by_label (hunks : List Hunk) (lab : String) (i : Nat)
    (hi : i < hunks.length) (hmatch : (hunks.get ⟨i, hi⟩).label = lab)
    (hfirst : ∀ j (hj : j < hunks.length), j < i → (hunks.get ⟨j, hj⟩).label ≠ lab) :
    hunkByLabel hunks lab = some (hunks.get ⟨i, hi⟩)
      ∧ ∀ cmd pLabel r,
          (handlePendingLabel hunks cmd pLabel r).executed = none
          ∨ (handlePendingLabel hunks cmd pLabel r).executed
              = hunkByLabel hunks (pLabel ++ String.singleton r)
          ∨ (handlePendingLabel hunks cmd pLabel r).executed = hunkByLabel hunks pLabel := by
  refine ⟨hunkByLabel_first hunks lab i hi hmatch hfirst, ?_⟩
  intro cmd pLabel r
  simp only [handlePendingLabel]
  split
  · exact Or.inr (Or.inl rfl)
  · split
    · exact Or.inl rfl
    · split
      · exact Or.inr (Or.inr rfl)
      · exact Or.inl rfl

/-- Witness for C10: two hunks share the label "x"; lookup returns the
first. -/
theorem claim_C10_witness :
    hunkByLabel [{ label := "x", file := "f1" }, { label := "x", file := "f2" }] "x"
      = some { label := "x", file := "f1" } :=
  (claim_C10_hunk_by_label [{ label := "x", file := "f1" }, { label := "x", file := "f2" }]
    "x" 0 (by decide) (by decide)
    (fun j _ hji => absurd hji (Nat.not_lt_zero j))).1

/-! ### C2: pending-label resolution on each new rune -/

/-- C2: with a label-consuming command pending and `candidate` the
accumulated label extended by the new rune, the dispatcher (i) executes
immediately and clears pending when `candidate` matches a hunk exactly and no
label has it as a strict prefix, (ii) accumulates `candidate` and arms the
timer when `candidate` matches exactly or is a strict prefix of some label
(but not (i)), (iii) otherwise executes on the hunk matching the previous
accumulated label if there is one, discarding the rune, and (iv) otherwise
clears pending silently.  Hunk labels are assumed non-empty, as produced by
every parse. -/
theorem claim_C2_pending (hunks : List Hunk) (cmd : Char) (pLabel : String) (r : Char)
    (hlab : ∀ h ∈ hunks, h.label ≠ "") :
    (labelExact hunks (pLabel ++ String.singleton r)
        ∧ ¬ labelStrictPre hunks (pLabel ++ String.singleton r) →
      ∃ h, handlePendingLabel hunks cmd pLabel r
            = { pendingKey := Char.ofNat 0, pendingLabel := "",
                executed := some h, timerArmed := false }
          ∧ h.label = pLabel ++ String.singleton r ∧ h ∈ hunks)
    ∧ ((labelExact hunks (pLabel ++ String.singleton r)
          ∨ labelStrictPre hunks (pLabel ++ String.singleton r))
        ∧ ¬ (labelExact hunks (pLabel ++ String.singleton r)
              ∧ ¬ labelStrictPre hunks (pLabel ++ String.singleton r)) →
      handlePendingLabel hunks cmd pLabel r
        = { pendingKey := cmd, pendingLabel := pLabel ++ String.singleton r,
            executed := none, timerArmed := true })
    ∧ (¬ labelExact hunks (pLabel ++ String.singleton r)
        ∧ ¬ labelStrictPre hunks (pLabel ++ String.singleton r)
        ∧ labelExact hunks pLabel →
      ∃ h, handlePendingLabel hunks cmd pLabel r
            = { pendingKey := Char.ofNat 0, pendingLabel := "",
                executed := some h, timerArmed := false }
          ∧ h.label = pLabel ∧ h ∈ hunks)
    ∧ (¬ labelExact hunks (pLabel ++ String.singleton r)
        ∧ ¬ labelStrictPre hunks (pLabel ++ String.singleton r)
        ∧ ¬ labelExact hunks pLabel →
      handlePendingLabel hunks cmd pLabel r
        = { pendingKey := Char.ofNat 0, pendingLabel := "",
            executed := none, timerArmed := false }) := by
  refine ⟨?_, ?_, ?_, ?_⟩
  · rintro ⟨hex, hnp⟩
    have hsome : (hunkByLabel hunks (pLabel ++ String.singleton r)).isSome = true :=
      (hunkByLabel_isSome ..).mpr hex
    have hpre : hasLabelPrefix hunks (pLabel ++ String.singleton r) = false :=
      Bool.not_eq_true _ ▸ (fun ht => hnp ((hasLabelPrefix_true_iff ..).mp ht))
    rcases Option.isSome_iff_exists.mp hsome with ⟨h, hh⟩
    refine ⟨h, ?_, (hunkByLabel_mem_label _ _ _ hh).1, (hunkByLabel_mem_label _ _ _ hh).2⟩
    simp only [handlePendingLabel, hh, hpre]
    rfl
  · rintro ⟨hor, hnot1⟩
    have hpre : hasLabelPrefix hunks (pLabel ++ String.singleton r) = true := by
      rw [hasLabelPrefix_true_iff]
      rcases hor with hex | hp
      · by_contra hnp
        exact hnot1 ⟨hex, hnp⟩
      · exact hp
    simp only [handlePendingLabel, hpre]
    split
    · rename_i hcond
      simp at hcond
    · rfl
  · rintro ⟨hnex, hnp, hexPrev⟩
    have hnone : hunkByLabel hunks (pLabel ++ String.singleton r) = none :=
      hunkByLabel_eq_none _ _ hnex
    have hpre : hasLabelPrefix hunks (pLabel ++ String.singleton r) = false :=
      Bool.not_eq_true _ ▸ (fun ht => hnp ((hasLabelPrefix_true_iff ..).mp ht))
    have hsomePrev : (hunkByLabel hunks pLabel).isSome = true :=
      (hunkByLabel_isSome ..).mpr hexPrev
    have hne : pLabel ≠ "" := by
      rcases hexPrev with ⟨h, hmem, hl⟩
      exact fun he => hlab h hmem (hl.trans he)
    have hbne : (pLabel != "") = true := bne_iff_ne.mpr hne
    rcases Option.isSome_iff_exists.mp hsomePrev with ⟨h, hh⟩
    refine ⟨h, ?_, (hunkByLabel_mem_label _ _ _ hh).1, (hunkByLabel_mem_label _ _ _ hh).2⟩
    simp only [handlePendingLabel, hnone, hpre, hbne, hh]
    rfl
  · rintro ⟨hnex, hnp, hnexPrev⟩
    have hnone : hunkByLabel hunks (pLabel ++ String.singleton r) = none :=
      hunkByLabel_eq_none _ _ hnex
    have hpre : hasLabelPrefix hunks (pLabel ++ String.singleton r) = false :=
      Bool.not_eq_true _ ▸ (fun ht => hnp ((hasLabelPrefix_true_iff ..).mp ht))
    have hnonePrev : hunkByLabel hunks pLabel = none := hunkByLabel_eq_none _ _ hnexPrev
    simp [handlePendingLabel, hnone, hpre, hnonePrev]

/-- Witness for C2: two hunks labelled "c" and "i"; pressing the rune c with
empty accumulated label executes immediately on the hunk labelled "c". -/
theorem claim_C2_witness :
    ∃ h, handlePendingLabel [{ label := "c" }, { label := "i" }] 'y' "" 'c'
          = { pendingKey := Char.ofNat 0, pendingLabel := "",
              executed := some h, timerArmed := false }
        ∧ h.label = "" ++ String.singleton 'c' ∧ h ∈ [{ label := "c" }, { label := "i" }] :=
  (claim_C2_pending [{ label := "c" }, { label := "i" }] 'y' "" 'c' (by decide)).1
    ⟨by decide, by decide⟩

/-! ### C5: side-by-side pairing of remove/add runs -/

theorem takeWhile_all_app (p : Line → Bool) (l1 l2 : List Line)
    (h1 : ∀ x ∈ l1, p x = true) :
    (l1 ++ l2).takeWhile p = l1 ++ l2.takeWhile p := by
  induction l1 with
  | nil => simp
  | cons a l1 ih =>
      have hpa : p a = true := h1 a (by simp)
      simp [List.takeWhile_cons, hpa, ih (fun x hx => h1 x (by simp [hx]))]

theorem dropWhile_all_app (p : Line → Bool) (l1 l2 : List Line)
    (h1 : ∀ x ∈ l1, p x = true) :
    (l1 ++ l2).dropWhile p = l2.dropWhile p := by
  induction l1 with
  | nil => simp
  | cons a l1 ih =>
      have hpa : p a = true := h1 a (by simp)
      simp [List.dropWhile_cons, hpa, ih (fun x hx => h1 x (by simp [hx]))]

theorem takeWhile_nil_of_head (p : Line → Bool) (l : List Line)
    (h : ∀ x ∈ l.head?.toList, p x = false) : l.takeWhile p = [] := by
  cases l with
  | nil => rfl
  | cons a l => simp [List.takeWhile_cons, h a (by simp)]

theorem dropWhile_self_of_head (p : Line → Bool) (l : List Line)
    (h : ∀ x ∈ l.head?.toList, p x = false) : l.dropWhile p = l := by
  cases l with
  | nil => rfl
  | cons a l => simp [List.dropWhile_cons, h a (by simp)]

/-- Spec-side row of the (amended) C5 pairing: remove k is paired with add k,
the shorter side padded with an empty half; the row style is removed when the
left half exists, added when only the right half exists, and context
otherwise. -/
def pairedRowSpec (hunkIdx : Int) (removes adds : List Line) (oldNo newNo : Int)
    (k : Nat) : DisplayLine :=
  { style :=
      if k < removes.length then LineStyle.removed
      else if k < adds.length then LineStyle.added
      else LineStyle.context,
    hunkIdx := hunkIdx,
    left :=
      match removes[k]? with
      | some l => { text := "-" ++ l.content, style := LineStyle.removed, lineNo := oldNo + k }
      | none => {},
    right :=
      match adds[k]? with
      | some l => { text := "+" ++ l.content, style := LineStyle.added, lineNo := newNo + k }
      | none => {} }

theorem str_app_bne_empty (s t : String) (hs : s.data ≠ []) : ((s ++ t) != "") = true := by
  rw [bne_iff_ne]
  intro he
  exact hs (List.append_eq_nil.mp
    (by simpa [string_data_append] using congrArg String.data he)).1

theorem pairBlock_eq_spec (hunkIdx : Int) (removes adds : List Line) (o n : Int) :
    pairBlock hunkIdx removes adds o n
      = (List.range (max removes.length adds.length)).map
          (pairedRowSpec hunkIdx removes adds o n) := by
  unfold pairBlock
  apply List.map_congr_left
  intro k _
  rcases hrk : removes[k]? with _ | l
  · have hklen : ¬ k < removes.length :=
      Nat.not_lt.mpr (List.getElem?_eq_none_iff.mp hrk)
    rcases hak : adds[k]? with _ | l2
    · have hklen2 : ¬ k < adds.length :=
        Nat.not_lt.mpr (List.getElem?_eq_none_iff.mp hak)
      simp only [pairedRowSpec, hrk, hak, if_neg hklen, if_neg hklen2]
      rfl
    · have hklen2 : k < adds.length := (List.getElem?_eq_some.mp hak).1
      simp only [pairedRowSpec, hrk, hak, if_neg hklen, if_pos hklen2]
      have hbne : (("+" ++ l2.content) != "") = true :=
        str_app_bne_empty "+" l2.content (by decide)
      simp only [hbne]
      rfl
  · have hklen : k < removes.length := (List.getElem?_eq_some.mp hrk).1
    have hbne : (("-" ++ l.content) != "") = true :=
      str_app_bne_empty "-" l.content (by decide)
    rcases hak : adds[k]? with _ | l2 <;>
      simp only [pairedRowSpec, hrk, hak, if_pos hklen, hbne] <;> rfl

theorem sbsRows_group (hunkIdx : Int) (removes adds rest : List Line) (oldNo newNo : Int)
    (hr : ∀ l ∈ removes, l.op = Op.remove) (ha : ∀ l ∈ adds, l.op = Op.add)
    (hrest : ∀ l ∈ rest.head?.toList, l.op = Op.context) :
    sbsRows hunkIdx (removes ++ adds ++ rest) oldNo newNo
      = pairBlock hunkIdx removes adds oldNo newNo
        ++ sbsRows hunkIdx rest (oldNo + (removes.length : Int)) (newNo + (adds.length : Int)) := by
  have hRemBeq : ∀ x ∈ removes, (x.op == Op.remove) = true := fun x hx => by
    rw [hr x hx]
    rfl
  have hAddBeq : ∀ x ∈ adds, (x.op == Op.add) = true := fun x hx => by
    rw [ha x hx]
    rfl
  have hRestRem : ∀ x ∈ rest.head?.toList, (x.op == Op.remove) = false := fun x hx => by
    rw [hrest x hx]
    rfl
  have hRestAdd : ∀ x ∈ rest.head?.toList, (x.op == Op.add) = false := fun x hx => by
    rw [hrest x hx]
    rfl
  have hHeadRem : ∀ x ∈ (adds ++ rest).head?.toList, (x.op == Op.remove) = false := by
    cases adds with
    | nil =>
        intro x hx
        exact hRestRem x (by simpa using hx)
    | cons a atail =>
        intro x hx
        simp only [List.cons_append, List.head?_cons, Option.toList_some, List.mem_singleton] at hx
        rw [hx, ha a (by simp)]
        rfl
  cases removes with
  | nil =>
      cases adds with
      | nil => simp [pairBlock]
      | cons a atail =>
          have hao : a.op = Op.add := ha a (by simp)
          simp only [List.nil_append, List.cons_append, sbsRows, hao]
          rw [takeWhile_all_app _ atail rest (fun x hx => hAddBeq x (by simp [hx])),
            takeWhile_nil_of_head _ _ hRestAdd,
            dropWhile_all_app _ atail rest (fun x hx => hAddBeq x (by simp [hx])),
            dropWhile_self_of_head _ _ hRestAdd]
          simp
  | cons r rtail =>
      have hro : r.op = Op.remove := hr r (by simp)
      rw [List.append_assoc, List.cons_append]
      simp only [sbsRows, hro]
      rw [takeWhile_all_app _ rtail (adds ++ rest)
            (fun x hx => hRemBeq x (by simp [hx])),
        takeWhile_nil_of_head _ _ hHeadRem,
        dropWhile_all_app _ rtail (adds ++ rest)
            (fun x hx => hRemBeq x (by simp [hx])),
        dropWhile_self_of_head _ _ hHeadRem,
        takeWhile_all_app _ adds rest hAddBeq,
        takeWhile_nil_of_head _ _ hRestAdd,
        dropWhile_all_app _ adds rest hAddBeq,
        dropWhile_self_of_head _ _ hRestAdd]
      simp

/-- C5 counterexample: a hunk consisting of one removed and one added line
produces a single side-by-side row with both halves populated, and its
overall style is removed, not context as the claim's "removed if only the
left half exists ... context otherwise" predicts. -/
theorem claim_C5_counterexample :
    sbsRows 0 [⟨Op.remove, "a"⟩, ⟨Op.add, "b"⟩] 1 1
        = [{ style := LineStyle.removed, hunkIdx := 0,
             left := { text := "-a", style := LineStyle.removed, lineNo := 1 },
             right := { text := "+b", style := LineStyle.added, lineNo := 1 } }]
      ∧ LineStyle.removed ≠ LineStyle.context := by
  constructor
  · have h := sbsRows_group 0 [⟨Op.remove, "a"⟩] [⟨Op.add, "b"⟩] [] 1 1
      (by decide) (by decide) (by decide)
    have h2 : sbsRows 0 [⟨Op.remove, "a"⟩, ⟨Op.add, "b"⟩] 1 1
        = pairBlock 0 [⟨Op.remove, "a"⟩] [⟨Op.add, "b"⟩] 1 1
          ++ sbsRows 0 [] (1 + ((1 : Nat) : Int)) (1 + ((1 : Nat) : Int)) := h
    rw [h2, show sbsRows 0 ([] : List Line) (1 + ((1 : Nat) : Int)) (1 + ((1 : Nat) : Int)) = []
      from by simp [sbsRows]]
    decide
  · decide

/-- C5 (amended): inside a hunk the side-by-side build pairs each maximal run
of consecutive '-' lines with the immediately following run of '+' lines by
index, padding the shorter side with empty halves; the row style is removed
when the left half exists, added when only the right half exists, and context
otherwise (the original claim instead demanded context whenever both halves
exist). -/
theorem claim_C5_amended (hunkIdx : Int) (removes adds rest : List Line) (oldNo newNo : Int)
    (hr : ∀ l ∈ removes, l.op = Op.remove) (ha : ∀ l ∈ adds, l.op = Op.add)
    (hrest : ∀ l ∈ rest.head?.toList, l.op = Op.context) :
    sbsRows hunkIdx (removes ++ adds ++ rest) oldNo newNo
        = pairBlock hunkIdx removes adds oldNo newNo
          ++ sbsRows hunkIdx rest (oldNo + (removes.length : Int)) (newNo + (adds.length : Int))
      ∧ pairBlock hunkIdx removes adds oldNo newNo
          = (List.range (max removes.length adds.length)).map
              (pairedRowSpec hunkIdx removes adds oldNo newNo)
      ∧ (pairBlock hunkIdx removes adds oldNo newNo).length
          = max removes.length adds.length :=
  ⟨sbsRows_group hunkIdx removes adds rest oldNo newNo hr ha hrest,
   pairBlock_eq_spec hunkIdx removes adds oldNo newNo,
   by simp [pairBlock]⟩

/-- Witness for C5 (amended) on the runs [-"a"] and [+"b", +"c"]. -/
theorem claim_C5_witness :
    sbsRows 7 ([⟨Op.remove, "a"⟩] ++ [⟨Op.add, "b"⟩, ⟨Op.add, "c"⟩] ++ [⟨Op.context, "d"⟩]) 10 20
        = pairBlock 7 [⟨Op.remove, "a"⟩] [⟨Op.add, "b"⟩, ⟨Op.add, "c"⟩] 10 20
          ++ sbsRows 7 [⟨Op.context, "d"⟩] (10 + ((1 : Nat) : Int)) (20 + ((2 : Nat) : Int))
      ∧ pairBlock 7 [⟨Op.remove, "a"⟩] [⟨Op.add, "b"⟩, ⟨Op.add, "c"⟩] 10 20
          = (List.range 2).map
              (pairedRowSpec 7 [⟨Op.remove, "a"⟩] [⟨Op.add, "b"⟩, ⟨Op.add, "c"⟩] 10 20) := by
  have h := claim_C5_amended 7 [⟨Op.remove, "a"⟩] [⟨Op.add, "b"⟩, ⟨Op.add, "c"⟩]
    [⟨Op.context, "d"⟩] 10 20 (by decide) (by decide) (by decide)
  exact ⟨h.1, h.2.1⟩

/-! ### C6: wrapping of long lines; no continuations without wrap -/

theorem pairBlock_no_cont (hunkIdx : Int) (removes adds : List Line) (o n : Int) :
    ∀ row ∈ pairBlock hunkIdx removes adds o n, row.continuation = false := by
  intro row hrow
  unfold pairBlock at hrow
  rcases List.mem_map.mp hrow with ⟨k, _, hk⟩
  subst hk
  rfl

theorem sbsRows_no_cont (hunkIdx : Int) (lines : List Line) (o n : Int) :
    ∀ row ∈ sbsRows hunkIdx lines o n, row.continuation = false := by
  have main : ∀ (k : Nat) (lines : List Line) (o n : Int), lines.length ≤ k →
      ∀ row ∈ sbsRows hunkIdx lines o n, row.continuation = false := by
    intro k
    induction k with
    | zero =>
        intro lines o n hlen row hrow
        rw [List.length_eq_zero.mp (Nat.le_zero.mp hlen)] at hrow
        simp [sbsRows] at hrow
    | succ k ih =>
        intro lines o n hlen row hrow
        cases lines with
        | nil => simp [sbsRows] at hrow
        | cons l rest =>
            have hrlen : rest.length ≤ k := by
              simp only [List.length_cons] at hlen
              omega
            cases hop : l.op with
            | context =>
                simp only [sbsRows, hop] at hrow
                rcases List.mem_cons.mp hrow with hc | hc
                · subst hc
                  rfl
                · exact ih rest _ _ hrlen row hc
            | remove =>
                simp only [sbsRows, hop] at hrow
                rcases List.mem_append.mp hrow with hc | hc
                · exact pairBlock_no_cont _ _ _ _ _ row hc
                · exact ih _ _ _
                    (Nat.le_trans (Nat.le_trans (length_dropWhile_line _ _)
                      (length_dropWhile_line _ _)) hrlen) row hc
            | add =>
                simp only [sbsRows, hop] at hrow
                rcases List.mem_append.mp hrow with hc | hc
                · exact pairBlock_no_cont _ _ _ _ _ row hc
                · exact ih _ _ _
                    (Nat.le_trans (length_dropWhile_line _ _) hrlen) row hc
  exact main lines.length lines o n (Nat.le_refl _)

theorem inlineRows_no_cont (hunkIdx : Int) (lines : List Line) (o n : Int) :
    ∀ row ∈ inlineRows hunkIdx lines o n, row.continuation = false := by
  induction lines generalizing o n with
  | nil =>
      intro row hrow
      simp [inlineRows] at hrow
  | cons l rest ih =>
      intro row hrow
      rw [inlineRows] at hrow
      rcases l with ⟨op, c⟩
      cases op <;>
        · rcases List.mem_cons.mp hrow with hc | hc
          · subst hc
            rfl
          · exact ih _ _ row hc

theorem header_block_no_cont (h : Hunk) (i : Int) (cf : String) :
    ∀ row ∈ ((if h.file != cf then
          (if cf != "" then [({} : DisplayLine)] else [])
            ++ [{ text := h.file, style := LineStyle.fileHeader }]
        else [])
        ++ [({} : DisplayLine)]
        ++ [{ text := h.comment, style := LineStyle.hunkHeader, label := h.label, hunkIdx := i }]),
      row.continuation = false := by
  intro row hrow
  rcases List.mem_append.mp hrow with hc | hc
  · rcases List.mem_append.mp hc with hc2 | hc2
    · split at hc2
      · rcases List.mem_append.mp hc2 with hc3 | hc3
        · split at hc3
          · rw [List.mem_singleton.mp hc3]
          · simp at hc3
        · rw [List.mem_singleton.mp hc3]
      · simp at hc2
    · rw [List.mem_singleton.mp hc2]
  · rw [List.mem_singleton.mp hc]

theorem buildSBSAux_no_cont (hunks : List Hunk) (i : Int) (cf ff : String) :
    ∀ row ∈ buildSBSAux hunks i cf ff, row.continuation = false := by
  induction hunks generalizing i cf with
  | nil =>
      intro row hrow
      simp [buildSBSAux] at hrow
  | cons h rest ih =>
      intro row hrow
      rw [buildSBSAux] at hrow
      by_cases hf : (ff != "" && h.file != ff) = true
      · rw [if_pos hf] at hrow
        exact ih (i + 1) cf row hrow
      · rw [if_neg hf] at hrow
        rcases List.mem_append.mp hrow with hc | hc
        · rcases List.mem_append.mp hc with hc2 | hc2
          · exact header_block_no_cont h i cf row
              (by simpa [List.append_assoc] using hc2)
          · exact sbsRows_no_cont _ _ _ _ row hc2
        · exact ih _ _ row hc

theorem buildInlineAux_no_cont (hunks : List Hunk) (i : Int) (cf ff : String) :
    ∀ row ∈ buildInlineAux hunks i cf ff, row.continuation = false := by
  induction hunks generalizing i cf with
  | nil =>
      intro row hrow
      simp [buildInlineAux] at hrow
  | cons h rest ih =>
      intro row hrow
      rw [buildInlineAux] at hrow
      by_cases hf : (ff != "" && h.file != ff) = true
      · rw [if_pos hf] at hrow
        exact ih (i + 1) cf row hrow
      · rw [if_neg hf] at hrow
        rcases List.mem_append.mp hrow with hc | hc
        · rcases List.mem_append.mp hc with hc2 | hc2
          · exact header_block_no_cont h i cf row
              (by simpa [List.append_assoc] using hc2)
          · exact inlineRows_no_cont _ _ _ _ row hc2
        · exact ih _ _ row hc

theorem wrapChunks_flatten (tw : Nat) (htw : 1 ≤ tw) (rs : List Char) :
    (wrapChunks tw rs).flatten = rs := by
  induction rs using wrapChunks.induct tw with
  | case1 rs hrs =>
      rw [wrapChunks, if_pos hrs]
      simp [List.isEmpty_iff.mp hrs]
  | case2 rs hrs ih =>
      rw [wrapChunks, if_neg hrs]
      simp only [List.flatten_cons, ih]
      rw [Nat.max_eq_left htw]
      exact List.take_append_drop tw rs

theorem wrapChunks_ne_nil (tw : Nat) (rs : List Char) (hrs : rs ≠ []) :
    wrapChunks tw rs ≠ [] := by
  rw [wrapChunks, if_neg (by simpa [List.isEmpty_iff] using hrs)]
  exact List.cons_ne_nil _ _

theorem content_style_cond (line : DisplayLine)
    (hstyle : line.style = LineStyle.added ∨ line.style = LineStyle.removed
      ∨ line.style = LineStyle.context) :
    (line.style == LineStyle.normal || line.style == LineStyle.fileHeader
      || line.style == LineStyle.hunkHeader) = false := by
  rcases hstyle with h | h | h <;> rw [h] <;> rfl

theorem join_texts_eq (st : LineStyle) (hidx : Int) (chunks : List (List Char)) :
    List.map String.data
        (List.map (fun row : DisplayLine => row.text)
          (List.map (fun chunk : List Char =>
              ({ text := String.mk chunk, style := st, hunkIdx := hidx,
                 continuation := true } : DisplayLine)) chunks))
      = chunks := by
  induction chunks with
  | nil => rfl
  | cons c cs ih => simpa using ih

theorem wrapOne_long (tw : Nat) (htw : 1 ≤ tw) (line : DisplayLine)
    (hstyle : line.style = LineStyle.added ∨ line.style = LineStyle.removed
      ∨ line.style = LineStyle.context)
    (hlen : tw < line.text.data.length) :
    ∃ tl, wrapOne tw line
        = { text := String.mk (line.text.data.take tw), style := line.style,
            hunkIdx := line.hunkIdx, oldLineNo := line.oldLineNo,
            newLineNo := line.newLineNo } :: tl
      ∧ 1 ≤ tl.length
      ∧ (∀ row ∈ tl, row.continuation = true ∧ row.oldLineNo = 0 ∧ row.newLineNo = 0
          ∧ row.hunkIdx = line.hunkIdx ∧ row.style = line.style)
      ∧ String.join ((wrapOne tw line).map (fun row => row.text)) = line.text := by
  have hcond := content_style_cond line hstyle
  have hone : wrapOne tw line
      = { text := String.mk (line.text.data.take tw), style := line.style,
          hunkIdx := line.hunkIdx, oldLineNo := line.oldLineNo,
          newLineNo := line.newLineNo }
        :: (wrapChunks tw (line.text.data.drop tw)).map
            (fun chunk => { text := String.mk chunk, style := line.style,
                            hunkIdx := line.hunkIdx, continuation := true }) := by
    unfold wrapOne
    rw [hcond]
    simp only [Bool.false_eq_true, if_false]
    rw [if_neg (Nat.not_le.mpr hlen)]
  refine ⟨_, hone, ?_, ?_, ?_⟩
  · rw [List.length_map]
    have hne : line.text.data.drop tw ≠ [] := by
      intro he
      have h2 := congrArg List.length he
      rw [List.length_drop, List.length_nil] at h2
      omega
    rcases hch : wrapChunks tw (line.text.data.drop tw) with _ | ⟨c, cs⟩
    · exact absurd hch (wrapChunks_ne_nil tw _ hne)
    · simp
  · intro row hrow
    rcases List.mem_map.mp hrow with ⟨chunk, _, hk⟩
    subst hk
    exact ⟨rfl, rfl, rfl, rfl, rfl⟩
  · rw [hone]
    apply String.ext
    rw [string_join_data]
    simp only [List.map_cons, List.flatten_cons, string_data_mk]
    rw [join_texts_eq, wrapChunks_flatten tw htw]
    exact List.take_append_drop tw line.text.data

theorem textWidth_toNat_pos (dw g : Int) (ln : Bool) : 1 ≤ (textWidth dw g ln).toNat := by
  simp only [textWidth]
  split <;> omega

/-- C6: with wrap off no display line of the diff view carries
`continuation = true`; with wrap on, every inline content line whose text is
longer than the computed text width appears in the output as a first chunk
retaining line numbers (not marked continuation) immediately followed by at
least one continuation chunk with zero line numbers and the same hunk index,
and the concatenation of the chunk texts equals the original text. -/
theorem claim_C6_wrap (hunks : List Hunk) (sideBySide lineNumbers : Bool)
    (filterFile : String) (diffWidth : Int) :
    (∀ row ∈ buildLinesDiffView hunks sideBySide false lineNumbers filterFile diffWidth,
        row.continuation = false)
    ∧ (∀ line ∈ buildInlineLines hunks filterFile,
        (line.style = LineStyle.added ∨ line.style = LineStyle.removed
            ∨ line.style = LineStyle.context) →
        (textWidth diffWidth (labelGutter hunks) lineNumbers).toNat < line.text.data.length →
        ∃ pre tl post,
          buildLinesDiffView hunks false true lineNumbers filterFile diffWidth
              = pre
                ++ ({ text := String.mk (line.text.data.take
                        (textWidth diffWidth (labelGutter hunks) lineNumbers).toNat),
                      style := line.style, hunkIdx := line.hunkIdx,
                      oldLineNo := line.oldLineNo, newLineNo := line.newLineNo } :: tl)
                ++ post
            ∧ 1 ≤ tl.length
            ∧ (∀ row ∈ tl, row.continuation = true ∧ row.oldLineNo = 0 ∧ row.newLineNo = 0
                ∧ row.hunkIdx = line.hunkIdx ∧ row.style = line.style)
            ∧ String.join
                (({ text := String.mk (line.text.data.take
                      (textWidth diffWidth (labelGutter hunks) lineNumbers).toNat),
                    style := line.style, hunkIdx := line.hunkIdx,
                    oldLineNo := line.oldLineNo, newLineNo := line.newLineNo } :: tl).map
                  (fun row => row.text)) = line.text) := by
  constructor
  · cases sideBySide with
    | false =>
        intro row hrow
        exact buildInlineAux_no_cont hunks 0 "" filterFile row hrow
    | true =>
        intro row hrow
        exact buildSBSAux_no_cont hunks 0 "" filterFile row hrow
  · intro line hline hstyle hlen
    have htw := textWidth_toNat_pos diffWidth (labelGutter hunks) lineNumbers
    rcases wrapOne_long _ htw line hstyle hlen with ⟨tl, hone, htl, hcont, hjoin⟩
    rcases List.append_of_mem hline with ⟨l1, l2, hil⟩
    refine ⟨wrapLines (textWidth diffWidth (labelGutter hunks) lineNumbers).toNat l1, tl,
      wrapLines (textWidth diffWidth (labelGutter hunks) lineNumbers).toNat l2, ?_, htl, hcont, ?_⟩
    · show wrapLines (textWidth diffWidth (labelGutter hunks) lineNumbers).toNat
          (buildInlineLines hunks filterFile) = _
      rw [hil]
      unfold wrapLines
      rw [List.flatMap_append, List.flatMap_cons, hone]
      simp [List.append_assoc]
    · rw [← hone]
      exact hjoin

/-- Concrete hunk for the C6 witness. -/
def c6hunk : Hunk :=
  { label := "i", file := "f", comment := "", oldStart := 1, newStart := 1,
    lines := [⟨Op.context, "abcdefgh"⟩] }

/-- Concrete display line for the C6 witness: the inline row of the single
context line of `c6hunk`. -/
def c6line : DisplayLine :=
  { text := " abcdefgh", style := LineStyle.context, hunkIdx := 0,
    oldLineNo := 1, newLineNo := 1 }

/-- Witness for C6 with a terminal 8 columns wide: the text width is 4 and
the 9-rune context line wraps. -/
theorem claim_C6_witness :
    (∀ row ∈ buildLinesDiffView [c6hunk] false false false "" 8, row.continuation = false)
    ∧ ∃ pre tl post,
        buildLinesDiffView [c6hunk] false true false "" 8
            = pre
              ++ ({ text := String.mk (c6line.text.data.take
                      (textWidth 8 (labelGutter [c6hunk]) false).toNat),
                    style := c6line.style, hunkIdx := c6line.hunkIdx,
                    oldLineNo := c6line.oldLineNo, newLineNo := c6line.newLineNo } :: tl)
              ++ post
          ∧ 1 ≤ tl.length
          ∧ (∀ row ∈ tl, row.continuation = true ∧ row.oldLineNo = 0 ∧ row.newLineNo = 0
              ∧ row.hunkIdx = c6line.hunkIdx ∧ row.style = c6line.style)
          ∧ String.join
              (({ text := String.mk (c6line.text.data.take
                    (textWidth 8 (labelGutter [c6hunk]) false).toNat),
                  style := c6line.style, hunkIdx := c6line.hunkIdx,
                  oldLineNo := c6line.oldLineNo, newLineNo := c6line.newLineNo } :: tl).map
                (fun row => row.text)) = c6line.text :=
  ⟨(claim_C6_wrap [c6hunk] false false "" 8).1,
   (claim_C6_wrap [c6hunk] false false "" 8).2 c6line (by decide) (by decide) (by decide)⟩

end Wiff
